import Mathlib

/-!
Verification of the Poincaré-embedding specification (gensim Poincaré tutorial).

The repository ships only the tutorial notebook
`docs/notebooks/Poincare Tutorial.ipynb`, which calls into
`gensim.models.poincare` (`PoincareModel`, `PoincareKeyedVectors`); the
implementation module itself is not part of the sources here.  Consequently the
data model and the operations below are modelled from the specification
(`spec.md`), faithful to its words, and the claims are settled against these
spec-modelled definitions.

Vectors are embedded as lists of rationals.  The hyperbolic distance
  d(x, y) = arcosh(1 + 2‖x−y‖² / ((1−‖x‖²)(1−‖y‖²)))
is the composition of the rational "gamma" kernel
  gamma x y = 1 + 2‖x−y‖² / ((1−‖x‖²)(1−‖y‖²))
with the real function `arcosh`, which is strictly increasing on `[1, ∞)`.
All order-sensitive operations (nearest neighbours, rank, hierarchy chains)
therefore compare `gamma` values, which is exactly comparing distances for
vectors inside the open unit ball; the statements relate the results back to
the real-valued distance.
-/

namespace Poincare

/-- Squared Euclidean norm of a vector (a list of rationals). -/
def normSq (x : List ℚ) : ℚ := (x.map (fun a => a * a)).sum

/-- Componentwise difference of two vectors. -/
def subV (x y : List ℚ) : List ℚ := List.zipWith (fun a b => a - b) x y

/-- Modelled from the spec: the argument of `arccosh` in the hyperbolic
distance formula, `1 + 2‖x−y‖² / ((1−‖x‖²)(1−‖y‖²))`.  This part of the
formula is rational-valued and fully computable. -/
def gamma (x y : List ℚ) : ℚ :=
  1 + 2 * normSq (subV x y) / ((1 - normSq x) * (1 - normSq y))

/-- Inverse hyperbolic cosine, `arcosh x = log (x + sqrt (x² − 1))`. -/
noncomputable def arcosh (x : ℝ) : ℝ := Real.log (x + Real.sqrt (x ^ 2 - 1))

/-- Modelled from the spec: `vectorDistance(a, b)`, the hyperbolic distance
formula applied directly to raw vectors
(`gensim.models.poincare.PoincareKeyedVectors.vector_distance` is not among
the sources). -/
noncomputable def vector_distance (x y : List ℚ) : ℝ := arcosh (gamma x y)

/-- Modelled from the spec: `vectorDistanceBatch(a, [b₁…bₙ])`, the batch form
of `vector_distance`, preserving input order. -/
noncomputable def vector_distance_batch (x : List ℚ) (ys : List (List ℚ)) :
    List ℝ := ys.map (fun y => vector_distance x y)

/-- Modelled from the spec: the trained embedding table read by the
`VectorIndex` query layer — a vocabulary of node ids with one vector per id
(`gensim.models.poincare.PoincareKeyedVectors` is not among the sources).
Index = position in the list; indices are assigned on first sight and stable. -/
structure KeyedVectors where
  entries : List (String × List ℚ)

/-- The vocabulary, in index order. -/
def KeyedVectors.keys (kv : KeyedVectors) : List String := kv.entries.map Prod.fst

/-- Resolve a node id to its vector (first occurrence). -/
def lookup (kv : KeyedVectors) (u : String) : Option (List ℚ) :=
  (kv.entries.find? (fun e => e.1 = u)).map Prod.snd

/-- Modelled from the spec: `norm(node)`, the Euclidean norm of the node's
vector; `none` when the id is unknown. -/
noncomputable def normOf (kv : KeyedVectors) (u : String) : Option ℝ :=
  (lookup kv u).map (fun x => Real.sqrt (normSq x))

/-- Modelled from the spec: `differenceInHierarchy(u, v) = norm(v) − norm(u)`
(plain norm subtraction, no distance-weighted term). -/
noncomputable def difference_in_hierarchy (kv : KeyedVectors) (u v : String) :
    Option ℝ := do
  let x ← lookup kv u
  let y ← lookup kv v
  pure (Real.sqrt (normSq y) - Real.sqrt (normSq x))

/-- Query-layer error kinds, from the spec's error-handling design. -/
inductive QueryError where
  | unknownNodeId : QueryError
  | boundaryViolation : QueryError
deriving DecidableEq

/-- Modelled from the spec: `distance(u, v)` resolves the ids and returns the
hyperbolic distance; a lookup error if either id is unknown, a domain error if
either resolved vector has norm ≥ 1 (equivalently squared norm ≥ 1). -/
noncomputable def distance (kv : KeyedVectors) (u v : String) :
    Except QueryError ℝ :=
  match lookup kv u, lookup kv v with
  | some x, some y =>
      if 1 ≤ normSq x ∨ 1 ≤ normSq y then Except.error QueryError.boundaryViolation
      else Except.ok (arcosh (gamma x y))
  | _, _ => Except.error QueryError.unknownNodeId

/-- The ordering used by every distance ranking: ascending `gamma` to the
query vector (equivalently ascending distance, on the open ball), ties broken
by the fixed deterministic vocabulary index. -/
def simRel (xu : List ℚ) (a b : ℕ × String × List ℚ) : Prop :=
  gamma xu a.2.2 < gamma xu b.2.2 ∨
    (gamma xu a.2.2 = gamma xu b.2.2 ∧ a.1 ≤ b.1)

instance (xu : List ℚ) : DecidableRel (simRel xu) := fun a b => by
  unfold simRel; infer_instance

/-- The indexed entries of the table other than the query id `u`, sorted
ascending by distance to `xu` with the index tie-break. -/
def rankedOthers (kv : KeyedVectors) (u : String) (xu : List ℚ) :
    List (ℕ × String × List ℚ) :=
  ((kv.entries.enum.filter (fun p => p.2.1 ≠ u)).insertionSort (simRel xu))

/-- Modelled from the spec: `mostSimilar(node, topN)` — the `topN` indexed
nodes closest to the query node, ascending by distance, excluding the query
node, ties broken by vocabulary index; each entry a (node id, distance) pair.
Returns `[]` for an unknown id. -/
noncomputable def most_similar (kv : KeyedVectors) (u : String) (topN : ℕ) :
    List (String × ℝ) :=
  match lookup kv u with
  | none => []
  | some xu =>
      ((rankedOthers kv u xu).take topN).map
        (fun p => (p.2.1, arcosh (gamma xu p.2.2)))

/-- Modelled from the spec: `rank(u, v)`, the 1-based position of `v` in `u`'s
ascending-distance ranking over all nodes (tied nodes share a position, so the
position is one more than the number of nodes, other than `u`, strictly closer
to `u` than `v` is); `none` for unknown ids. -/
def rank (kv : KeyedVectors) (u v : String) : Option ℕ :=
  match lookup kv u, lookup kv v with
  | some xu, some xv =>
      some (1 + kv.entries.countP
        (fun e => decide (e.1 ≠ u ∧ gamma xu e.2 < gamma xu xv)))
  | _, _ => none

/-- Modelled from the spec: `nodesCloserThan(u, v)`, the node ids other than
`u` whose distance to `u` is strictly less than `distance(u, v)`, ascending by
distance (strictly-less `gamma` is strictly-less distance on the open ball);
`[]` for unknown ids. -/
def nodes_closer_than (kv : KeyedVectors) (u v : String) : List String :=
  match lookup kv u, lookup kv v with
  | some xu, some xv =>
      (((kv.entries.enum.filter
          (fun p => p.2.1 ≠ u ∧ gamma xu p.2.2 < gamma xu xv)).insertionSort
            (simRel xu)).map (fun p => p.2.1))
  | _, _ => []

/-- Modelled from the spec: `closestChild(node)` — among all nodes with
strictly greater norm than `node` (equivalently strictly greater squared
norm), the one with minimum distance to it, ties broken by vocabulary index;
`none` when no node has a greater norm or the id is unknown. -/
def closest_child (kv : KeyedVectors) (u : String) : Option String :=
  match lookup kv u with
  | none => none
  | some xu =>
      (((kv.entries.enum.filter
          (fun p => normSq xu < normSq p.2.2)).insertionSort
            (simRel xu)).head?).map (fun p => p.2.1)

/-- Modelled from the spec: `closestParent(node)` — among all nodes with
strictly smaller norm, the minimum-distance one; `none` when `node` already
has the minimum norm or the id is unknown. -/
def closest_parent (kv : KeyedVectors) (u : String) : Option String :=
  match lookup kv u with
  | none => none
  | some xu =>
      (((kv.entries.enum.filter
          (fun p => normSq p.2.2 < normSq xu)).insertionSort
            (simRel xu)).head?).map (fun p => p.2.1)

/-- Greedily chain a step function from a start node, stopping after `d` steps
or when no further step exists.  Used by `descendants` and `ancestors`. -/
def chainFrom (step : String → Option String) : ℕ → String → List String
  | 0, _ => []
  | d + 1, u =>
      match step u with
      | none => []
      | some w => w :: chainFrom step d w

/-- Modelled from the spec: `descendants(node, maxDepth)` — greedily chain
`closestChild` starting at `node`. -/
def descendants (kv : KeyedVectors) (u : String) (maxDepth : ℕ) : List String :=
  chainFrom (closest_child kv) maxDepth u

/-- Modelled from the spec: `ancestors(node, maxDepth)` — greedily chain
`closestParent` starting at `node`. -/
def ancestors (kv : KeyedVectors) (u : String) (maxDepth : ℕ) : List String :=
  chainFrom (closest_parent kv) maxDepth u

/-! ### Trainer (modelled from the spec)

The training engine mutates real-valued vectors; its boundary-projection step
and its epoch/learning-rate state machine are modelled here.  The gradient of
the contrastive loss enters the invariant claim only through the projected
update `x ← project(x − η · g)`, so the update is stated for an arbitrary
displacement `g`. -/

/-- Squared Euclidean norm of a real vector. -/
noncomputable def normSqR (x : List ℝ) : ℝ := (x.map (fun a => a * a)).sum

/-- Euclidean norm of a real vector. -/
noncomputable def normR (x : List ℝ) : ℝ := Real.sqrt (normSqR x)

/-- Scalar multiple of a real vector. -/
def smulV (c : ℝ) (x : List ℝ) : List ℝ := x.map (fun a => c * a)

/-- Modelled from the spec: `project` rescales the result toward the origin,
preserving direction, whenever the unconstrained step would reach the
boundary, keeping the norm strictly below `1 − ε` (concretely, rescaling a
violating vector to norm `(1 − ε)²`). -/
noncomputable def project (eps : ℝ) (x : List ℝ) : List ℝ :=
  if normR x < 1 - eps then x
  else smulV ((1 - eps) * (1 - eps) / normR x) x

/-- Modelled from the spec: one vector update of the Riemannian SGD step,
`x ← project(x − η · g)` where `g` is the Riemannian gradient at `x`. -/
noncomputable def updateVec (eps lr : ℝ) (g x : List ℝ) : List ℝ :=
  project eps (List.zipWith (fun a b => a - lr * b) x g)

/-- Modelled from the spec: the projected Riemannian SGD step for one relation
`(child, parent)` with negative indices `negatives` applied to the embedding
table — the child, the parent and each negative have their vectors updated
through `updateVec` with that vector's gradient, all other vectors are left
untouched.  `grads` gives the Riemannian gradient used at each involved
index. -/
noncomputable def trainStep (eps lr : ℝ) (table : List (List ℝ))
    (child parent : ℕ) (negatives : List ℕ) (grads : ℕ → List ℝ) :
    List (List ℝ) :=
  table.enum.map (fun p =>
    if p.1 = child ∨ p.1 = parent ∨ p.1 ∈ negatives then
      updateVec eps lr (grads p.1) p.2
    else p.2)

/-- Modelled from the spec: run the projected Riemannian SGD step over a whole
pass of relations (each relation: child, parent, negatives, gradients), in
order — as performed for every relation of every epoch. -/
noncomputable def trainRun (eps lr : ℝ)
    (rels : List ((ℕ × ℕ) × List ℕ × (ℕ → List ℝ))) (table : List (List ℝ)) :
    List (List ℝ) :=
  rels.foldl (fun t r => trainStep eps lr t r.1.1 r.1.2 r.2.1 r.2.2) table

/-- Modelled from the spec: `TrainingState` — epoch counter, current learning
rate, cumulative processed-example counter, running loss; mutated only by the
Trainer and threaded through successive train calls. -/
structure TrainingState where
  epochCount : ℕ
  currentLr : ℚ
  examplesProcessed : ℕ
  runningLoss : ℚ

/-- Modelled from the spec: trainer configuration — burn-in epoch count,
burn-in learning rate `η_burn`, main learning rate `η_main`, and the number of
relations visited per epoch. -/
structure TrainerConfig where
  burnInEpochs : ℕ
  lrBurn : ℚ
  lrMain : ℚ
  numRelations : ℕ

/-- The learning rate used by an epoch whose 0-based global index (counting
from the very first epoch ever run on this state) is `i`: `η_burn` during the
configured burn-in epochs, `η_main` permanently afterwards. -/
def epochLr (cfg : TrainerConfig) (i : ℕ) : ℚ :=
  if i < cfg.burnInEpochs then cfg.lrBurn else cfg.lrMain

/-- Run one epoch: visits every relation once, advances the epoch counter,
sets the current learning rate from the schedule. -/
def runEpoch (cfg : TrainerConfig) (st : TrainingState) : TrainingState :=
  { epochCount := st.epochCount + 1
    currentLr := epochLr cfg st.epochCount
    examplesProcessed := st.examplesProcessed + cfg.numRelations
    runningLoss := st.runningLoss }

/-- Modelled from the spec: the train entry point — runs `epochs` epochs,
resuming from the stored `TrainingState` rather than resetting it.  Returns
the final state together with the learning rates used by each epoch of this
call, in order. -/
def train (cfg : TrainerConfig) (st : TrainingState) :
    ℕ → TrainingState × List ℚ
  | 0 => (st, [])
  | n + 1 =>
      let rest := train cfg (runEpoch cfg st) n
      (rest.1, epochLr cfg st.epochCount :: rest.2)

/-- The norm-based step relation of the hierarchy chains: the second node
has strictly larger norm than the first (used flipped for ancestors). -/
def normLt (kv : KeyedVectors) (a b : String) : Prop :=
  ∃ na nb, normOf kv a = some na ∧ normOf kv b = some nb ∧ na < nb

/-- Modelled from the spec and the tutorial's `most_similar` calls:
`mostSimilar(node)` without an explicit `topN` returns the default neighbour
count of 10 entries. -/
noncomputable def most_similar_default (kv : KeyedVectors) (u : String) :
    List (String × ℝ) := most_similar kv u 10

/-- The embedding-table invariant: every stored vector lies in the open unit
ball (squared norm strictly below 1). -/
def inBall (kv : KeyedVectors) : Prop := ∀ e ∈ kv.entries, normSq e.2 < 1

instance (kv : KeyedVectors) : Decidable (inBall kv) := by
  unfold inBall; infer_instance

/-! ### Concrete tables used to instantiate the statements -/

/-- The tutorial's reference values: `norm(person.n.01) = 0.940798238231` and
`norm(teacher.n.01) = 0.967868985302`, realised by one-dimensional vectors
with exactly those (nonnegative) coordinates. -/
def refTable : KeyedVectors :=
  ⟨[("person.n.01", [0.940798238231]), ("teacher.n.01", [0.967868985302])]⟩

/-- A four-node table exhibiting the directionality of the hierarchy chains:
descending from `x` reaches `y` (via `w`), while ascending from `y` goes
`w`, `xp` and never meets `x` (`xp` ties `x` for the minimum norm, so the
ancestor chain stops at `xp`). -/
def exTable : KeyedVectors :=
  ⟨[("xp", [-(1/4), 0]), ("x", [1/4, 0]),
    ("w", [-(1/4), -(1/4)]), ("y", [-(1/4), -(1/2)])]⟩

/-- A five-node table inside the open ball with pairwise distinct distances,
used to instantiate the query-layer statements. -/
def ballTable : KeyedVectors :=
  ⟨[("a", [0]), ("b", [1/10]), ("c", [2/10]), ("d", [3/10]), ("e", [4/10])]⟩

/-- An eleven-node table inside the open ball, used to instantiate the
default-neighbour-count statement (vocabulary larger than 10). -/
def bigTable : KeyedVectors :=
  ⟨[("n00", [0]), ("n01", [1/100]), ("n02", [2/100]), ("n03", [3/100]),
    ("n04", [4/100]), ("n05", [5/100]), ("n06", [6/100]), ("n07", [7/100]),
    ("n08", [8/100]), ("n09", [9/100]), ("n10", [10/100])]⟩

/-- A table with a vector on each side of the boundary, used to instantiate
the error-handling statement (`c`'s vector has norm ≥ 1). -/
def errTable : KeyedVectors :=
  ⟨[("a", [1/2]), ("b", [1/3]), ("c", [2])]⟩

/-- A demonstration trainer configuration: one burn-in epoch,
`η_burn = 1/100`, `η_main = 1/10`, two relations per epoch. -/
def demoConfig : TrainerConfig := ⟨1, 1/100, 1/10, 2⟩

/-- A fresh demonstration training state. -/
def demoState : TrainingState := ⟨0, 1/100, 0, 0⟩

/-! ### Basic lemmas: squared norms, gamma, arcosh -/

theorem normSq_nonneg (x : List ℚ) : 0 ≤ normSq x := by
  unfold normSq
  induction x with
  | nil => simp
  | cons a l ih =>
      simp only [List.map_cons, List.sum_cons]
      nlinarith [mul_self_nonneg a]

theorem normSq_eq_zero_iff (x : List ℚ) : normSq x = 0 ↔ ∀ a ∈ x, a = 0 := by
  unfold normSq
  induction x with
  | nil => simp
  | cons a l ih =>
      simp only [List.map_cons, List.sum_cons, List.mem_cons]
      constructor
      · intro h
        have hl : 0 ≤ (l.map (fun a => a * a)).sum := normSq_nonneg l
        have ha : a * a = 0 := by nlinarith [mul_self_nonneg a]
        have ha' : a = 0 := by
          rcases mul_self_eq_zero.mp ha with h; exact h
        refine fun b hb => hb.elim (fun h1 => h1 ▸ ha') (fun h1 => ?_)
        exact (ih.mp (by linarith [ha])) b h1
      · intro h
        have ha : a = 0 := h a (Or.inl rfl)
        have hl : (l.map (fun a => a * a)).sum = 0 :=
          ih.mpr (fun b hb => h b (Or.inr hb))
        simp [ha, hl]

theorem normSq_subV_eq_zero_iff {x y : List ℚ} (h : x.length = y.length) :
    normSq (subV x y) = 0 ↔ x = y := by
  rw [normSq_eq_zero_iff]
  unfold subV
  induction x generalizing y with
  | nil =>
      cases y with
      | nil => simp
      | cons b m => simp at h
  | cons a l ih =>
      cases y with
      | nil => simp at h
      | cons b m =>
          simp only [List.length_cons, Nat.succ_inj] at h
          simp only [List.zipWith_cons_cons, List.mem_cons, List.cons.injEq]
          constructor
          · intro hz
            have hab : a - b = 0 := hz _ (Or.inl rfl)
            exact ⟨by linarith, (ih h).mp (fun c hc => hz c (Or.inr hc))⟩
          · rintro ⟨hab, hlm⟩
            rintro c (hc | hc)
            · simp [hc, hab]
            · exact (ih h).mpr hlm c hc

theorem normSq_subV_comm (x y : List ℚ) :
    normSq (subV x y) = normSq (subV y x) := by
  unfold normSq subV
  induction x generalizing y with
  | nil => cases y <;> simp
  | cons a l ih =>
      cases y with
      | nil => simp
      | cons b m =>
          simp only [List.zipWith_cons_cons, List.map_cons, List.sum_cons]
          rw [ih m]; ring_nf

theorem one_le_gamma {x y : List ℚ} (hx : normSq x < 1) (hy : normSq y < 1) :
    1 ≤ gamma x y := by
  unfold gamma
  have hdenom : 0 < (1 - normSq x) * (1 - normSq y) := by
    apply mul_pos <;> linarith
  have hnum : 0 ≤ 2 * normSq (subV x y) := by
    linarith [normSq_nonneg (subV x y)]
  have := div_nonneg hnum (le_of_lt hdenom)
  linarith

theorem gamma_symm (x y : List ℚ) : gamma x y = gamma y x := by
  unfold gamma
  rw [normSq_subV_comm, mul_comm (1 - normSq x)]

theorem gamma_eq_one_iff {x y : List ℚ} (hx : normSq x < 1)
    (hy : normSq y < 1) (hlen : x.length = y.length) :
    gamma x y = 1 ↔ x = y := by
  unfold gamma
  have hdenom : 0 < (1 - normSq x) * (1 - normSq y) := by
    apply mul_pos <;> linarith
  rw [← normSq_subV_eq_zero_iff hlen]
  constructor
  · intro h
    have h2 : 2 * normSq (subV x y) / ((1 - normSq x) * (1 - normSq y)) = 0 := by
      linarith
    have h3 : 2 * normSq (subV x y) = 0 :=
      (div_eq_zero_iff.mp h2).resolve_right (ne_of_gt hdenom)
    linarith
  · intro h
    rw [h]; simp

theorem arcosh_nonneg {x : ℝ} (hx : 1 ≤ x) : 0 ≤ arcosh x := by
  unfold arcosh
  apply Real.log_nonneg
  have := Real.sqrt_nonneg (x ^ 2 - 1)
  linarith

theorem arcosh_one : arcosh 1 = 0 := by
  unfold arcosh
  norm_num

theorem arcosh_eq_zero_iff {x : ℝ} (hx : 1 ≤ x) : arcosh x = 0 ↔ x = 1 := by
  constructor
  · intro h
    unfold arcosh at h
    have hs := Real.sqrt_nonneg (x ^ 2 - 1)
    rcases Real.log_eq_zero.mp h with h1 | h1 | h1
    · linarith
    · have : Real.sqrt (x ^ 2 - 1) = 1 - x := by linarith
      have h2 : (0 : ℝ) ≤ 1 - x := this ▸ hs
      linarith
    · linarith
  · intro h; rw [h]; exact arcosh_one

theorem arcosh_strictMono {a b : ℝ} (ha : 1 ≤ a) (hab : a < b) :
    arcosh a < arcosh b := by
  unfold arcosh
  have hsq : a ^ 2 - 1 ≤ b ^ 2 - 1 := by nlinarith
  have hs := Real.sqrt_le_sqrt hsq
  have hpos : 0 < a + Real.sqrt (a ^ 2 - 1) := by
    have := Real.sqrt_nonneg (a ^ 2 - 1); linarith
  exact Real.log_lt_log hpos (by linarith)

theorem arcosh_mono {a b : ℝ} (ha : 1 ≤ a) (hab : a ≤ b) :
    arcosh a ≤ arcosh b := by
  rcases eq_or_lt_of_le hab with h | h
  · rw [h]
  · exact le_of_lt (arcosh_strictMono ha h)

/-! ### Helper lemmas: lookup, enumeration, the ranking order -/

theorem lookup_mem {kv : KeyedVectors} {u : String} {x : List ℚ}
    (h : lookup kv u = some x) : (u, x) ∈ kv.entries := by
  unfold lookup at h
  cases hf : kv.entries.find? (fun e => e.1 = u) with
  | none => rw [hf] at h; simp at h
  | some e =>
      rw [hf] at h
      have he := List.mem_of_find?_eq_some hf
      have hp := List.find?_some hf
      simp only [decide_eq_true_eq] at hp
      simp only [Option.map_some', Option.some.injEq] at h
      have : e = (u, x) := by
        cases e with
        | mk a b => simp only [Prod.mk.injEq]; exact ⟨hp, h⟩
      rwa [this] at he

theorem find?_key_of_nodup :
    ∀ {l : List (String × List ℚ)}, (l.map Prod.fst).Nodup →
      ∀ {w : String} {y : List ℚ}, (w, y) ∈ l →
        l.find? (fun e => e.1 = w) = some (w, y) := by
  intro l
  induction l with
  | nil => intro _ w y hm; simp at hm
  | cons e t ih =>
      intro hnd w y hm
      simp only [List.map_cons, List.nodup_cons] at hnd
      by_cases he : e.1 = w
      · have : e = (w, y) := by
          rcases List.mem_cons.mp hm with h1 | h1
          · exact h1.symm
          · exfalso
            apply hnd.1
            rw [he]
            exact List.mem_map.mpr ⟨(w, y), h1, rfl⟩
        rw [this] at he ⊢
        simp [List.find?]
      · have h1 : (w, y) ∈ t := by
          rcases List.mem_cons.mp hm with h2 | h2
          · exfalso; apply he; rw [← h2]
          · exact h2
        have := ih hnd.2 h1
        simp only [List.find?, decide_eq_false he]
        exact this

theorem lookup_of_mem {kv : KeyedVectors} (hnd : kv.keys.Nodup)
    {w : String} {y : List ℚ} (hm : (w, y) ∈ kv.entries) :
    lookup kv w = some y := by
  unfold lookup
  rw [find?_key_of_nodup hnd hm]
  rfl

theorem snd_mem_of_mem_enum {α : Type} {l : List α} {p : ℕ × α}
    (h : p ∈ l.enum) : p.2 ∈ l :=
  List.get?_mem (List.mem_enum_iff_get?.mp h)

theorem mem_enum_of_mem {α : Type} {l : List α} {a : α} (h : a ∈ l) :
    ∃ i, (i, a) ∈ l.enum := by
  obtain ⟨n, hn⟩ := List.mem_iff_get?.mp h
  exact ⟨n, List.mem_enum_iff_get?.mpr hn⟩

theorem simRel_total (xu : List ℚ) (a b : ℕ × String × List ℚ) :
    simRel xu a b ∨ simRel xu b a := by
  unfold simRel
  rcases lt_trichotomy (gamma xu a.2.2) (gamma xu b.2.2) with h | h | h
  · exact Or.inl (Or.inl h)
  · rcases Nat.le_total a.1 b.1 with h1 | h1
    · exact Or.inl (Or.inr ⟨h, h1⟩)
    · exact Or.inr (Or.inr ⟨h.symm, h1⟩)
  · exact Or.inr (Or.inl h)

theorem simRel_trans (xu : List ℚ) (a b c : ℕ × String × List ℚ)
    (hab : simRel xu a b) (hbc : simRel xu b c) : simRel xu a c := by
  unfold simRel at *
  rcases hab with h1 | ⟨h1, h1'⟩
  · rcases hbc with h2 | ⟨h2, _⟩
    · exact Or.inl (h1.trans h2)
    · exact Or.inl (h2 ▸ h1)
  · rcases hbc with h2 | ⟨h2, h2'⟩
    · exact Or.inl (h1 ▸ h2)
    · exact Or.inr ⟨h1.trans h2, h1'.trans h2'⟩

theorem sorted_insertionSort_simRel (xu : List ℚ)
    (l : List (ℕ × String × List ℚ)) :
    List.Sorted (simRel xu) (l.insertionSort (simRel xu)) := by
  haveI : IsTotal (ℕ × String × List ℚ) (simRel xu) := ⟨simRel_total xu⟩
  haveI : IsTrans (ℕ × String × List ℚ) (simRel xu) := ⟨simRel_trans xu⟩
  exact List.sorted_insertionSort _ l

theorem length_filter_enumFrom {α : Type} (q : α → Bool) :
    ∀ (l : List α) (n : ℕ),
      ((l.enumFrom n).filter (fun p => q p.2)).length = (l.filter q).length := by
  intro l
  induction l with
  | nil => intro n; rfl
  | cons a t ih =>
      intro n
      simp only [List.enumFrom, List.filter_cons]
      by_cases hq : q a = true
      · simp only [hq, if_true, List.length_cons, ih]
      · simp only [List.filter_cons] at *
        rw [if_neg (by simpa using hq), if_neg (by simpa using hq), ih]

theorem length_filter_ne_key :
    ∀ {l : List (String × List ℚ)}, (l.map Prod.fst).Nodup →
      ∀ {u : String}, u ∈ l.map Prod.fst →
        (l.filter (fun e => decide (e.1 ≠ u))).length + 1 = l.length := by
  intro l
  induction l with
  | nil => intro _ u hu; simp at hu
  | cons e t ih =>
      intro hnd u hu
      simp only [List.map_cons, List.nodup_cons] at hnd
      simp only [List.map_cons, List.mem_cons] at hu
      by_cases he : e.1 = u
      · have hall : t.filter (fun e => decide (e.1 ≠ u)) = t := by
          apply List.filter_eq_self.mpr
          intro b hb
          simp only [decide_eq_true_eq]
          intro hbu
          exact hnd.1 (by rw [he, ← hbu]; exact List.mem_map.mpr ⟨b, hb, rfl⟩)
        have hfe : (decide (e.1 ≠ u)) = false := by simp [he]
        rw [List.filter_cons, hfe]
        simp only [Bool.false_eq_true, if_false, List.length_cons]
        rw [hall]
      · have hut : u ∈ t.map Prod.fst := by
          rcases hu with h | h
          · exact absurd h.symm he
          · exact h
        simp only [List.filter_cons]
        rw [if_pos (by simpa using he)]
        simp only [List.length_cons]
        rw [← ih hnd.2 hut]

/-! ### Real-vector norm lemmas for the trainer -/

theorem normSqR_nonneg (x : List ℝ) : 0 ≤ normSqR x := by
  unfold normSqR
  induction x with
  | nil => simp
  | cons a l ih =>
      simp only [List.map_cons, List.sum_cons]
      nlinarith [mul_self_nonneg a]

theorem normSqR_smulV (c : ℝ) (x : List ℝ) :
    normSqR (smulV c x) = c ^ 2 * normSqR x := by
  unfold normSqR smulV
  induction x with
  | nil => simp
  | cons a l ih =>
      simp only [List.map_cons, List.sum_cons, ih]
      ring

theorem normR_smulV (c : ℝ) (x : List ℝ) :
    normR (smulV c x) = |c| * normR x := by
  unfold normR
  rw [normSqR_smulV, Real.sqrt_mul (sq_nonneg c), Real.sqrt_sq_eq_abs]

theorem project_lt {eps : ℝ} (h0 : 0 < eps) (h1 : eps < 1) (x : List ℝ) :
    normR (project eps x) < 1 - eps := by
  unfold project
  split
  · assumption
  · rename_i h
    have hge : 1 - eps ≤ normR x := not_lt.mp h
    have hpos : 0 < normR x := lt_of_lt_of_le (by linarith) hge
    rw [normR_smulV]
    have hc : 0 ≤ (1 - eps) * (1 - eps) / normR x :=
      div_nonneg (by nlinarith) (le_of_lt hpos)
    rw [abs_of_nonneg hc, div_mul_cancel₀ _ (ne_of_gt hpos)]
    nlinarith

theorem trainStep_ball (eps lr : ℝ) (table : List (List ℝ))
    (child parent : ℕ) (negatives : List ℕ) (grads : ℕ → List ℝ)
    (heps : 0 < eps) (heps1 : eps < 1)
    (hball : ∀ v ∈ table, normR v < 1 - eps) :
    ∀ v ∈ trainStep eps lr table child parent negatives grads,
      normR v < 1 - eps := by
  intro v hv
  unfold trainStep at hv
  obtain ⟨p, hp, rfl⟩ := List.mem_map.mp hv
  by_cases hi : p.1 = child ∨ p.1 = parent ∨ p.1 ∈ negatives
  · rw [if_pos hi]
    unfold updateVec
    exact project_lt heps heps1 _
  · rw [if_neg hi]
    exact hball p.2 (snd_mem_of_mem_enum hp)

/-! ### Claim theorems -/

/-- C3: for all vectors `x`, `y` (of the embedding dimension) with Euclidean
norm strictly less than 1, `vectorDistance x y` is non-negative, it equals 0
iff `x = y`, and it is symmetric; consequently `distance(a, a) = 0` for every
known node id `a` (whose vector is in the open ball). -/
theorem vector_distance_metric (x y : List ℚ) (hx : normSq x < 1)
    (hy : normSq y < 1) (hlen : x.length = y.length) :
    0 ≤ vector_distance x y
    ∧ (vector_distance x y = 0 ↔ x = y)
    ∧ vector_distance x y = vector_distance y x
    ∧ ∀ (kv : KeyedVectors) (a : String) (xa : List ℚ),
        lookup kv a = some xa → normSq xa < 1 →
          distance kv a a = Except.ok 0 := by
  have hγ : (1 : ℝ) ≤ (gamma x y : ℝ) := by
    exact_mod_cast one_le_gamma hx hy
  refine ⟨arcosh_nonneg hγ, ?_, ?_, ?_⟩
  · unfold vector_distance
    rw [arcosh_eq_zero_iff hγ]
    rw [show ((gamma x y : ℝ) = 1 ↔ gamma x y = 1) by exact_mod_cast Iff.rfl]
    exact gamma_eq_one_iff hx hy hlen
  · unfold vector_distance
    rw [gamma_symm]
  · intro kv a xa ha hxa
    unfold distance
    rw [ha]
    show (if 1 ≤ normSq xa ∨ 1 ≤ normSq xa then
        Except.error QueryError.boundaryViolation
      else Except.ok (arcosh (gamma xa xa : ℝ))) = Except.ok 0
    have hcond : ¬(1 ≤ normSq xa ∨ 1 ≤ normSq xa) := by
      push_neg; constructor <;> linarith
    rw [if_neg hcond]
    have h1 : gamma xa xa = 1 := (gamma_eq_one_iff hxa hxa rfl).mpr rfl
    rw [h1]
    norm_num [arcosh_one]

/-- C3 witness: the metric properties instantiated at concrete vectors
`[1/2]` and `[1/3]` and the concrete table `errTable` at node `a`. -/
theorem vector_distance_metric_witness :
    (normSq [(1 : ℚ)/2] < 1 ∧ normSq [(1 : ℚ)/3] < 1
      ∧ List.length [(1 : ℚ)/2] = List.length [(1 : ℚ)/3])
    ∧ (0 ≤ vector_distance [(1 : ℚ)/2] [(1 : ℚ)/3]
      ∧ (vector_distance [(1 : ℚ)/2] [(1 : ℚ)/3] = 0 ↔ [(1 : ℚ)/2] = [(1 : ℚ)/3])
      ∧ vector_distance [(1 : ℚ)/2] [(1 : ℚ)/3]
          = vector_distance [(1 : ℚ)/3] [(1 : ℚ)/2]
      ∧ ∀ (kv : KeyedVectors) (a : String) (xa : List ℚ),
          lookup kv a = some xa → normSq xa < 1 →
            distance kv a a = Except.ok 0) :=
  ⟨⟨by norm_num [normSq], by norm_num [normSq], rfl⟩,
    vector_distance_metric _ _ (by norm_num [normSq]) (by norm_num [normSq]) rfl⟩

/-- C1: `differenceInHierarchy(u, v)` equals `norm(v) − norm(u)` exactly
(plain norm subtraction, no distance-weighted term), it is positive exactly
when `norm(u) < norm(v)`, and on the reference table with
`norm(person.n.01) = 0.940798238231` and `norm(teacher.n.01) = 0.967868985302`
it equals `0.027070747071`. -/
theorem difference_in_hierarchy_spec (kv : KeyedVectors) (u v : String)
    (x y : List ℚ) (hu : lookup kv u = some x) (hv : lookup kv v = some y)
    (hx : normSq x < 1) (hy : normSq y < 1) :
    (difference_in_hierarchy kv u v
        = some (Real.sqrt (normSq y) - Real.sqrt (normSq x)))
    ∧ normOf kv u = some (Real.sqrt (normSq x))
    ∧ normOf kv v = some (Real.sqrt (normSq y))
    ∧ (0 < Real.sqrt (normSq y) - Real.sqrt (normSq x)
        ↔ Real.sqrt (normSq x) < Real.sqrt (normSq y))
    ∧ difference_in_hierarchy refTable "person.n.01" "teacher.n.01"
        = some (0.027070747071 : ℝ) := by
  refine ⟨?_, ?_, ?_, sub_pos, ?_⟩
  · simp [difference_in_hierarchy, hu, hv]
  · simp [normOf, hu]
  · simp [normOf, hv]
  · have hp : lookup refTable "person.n.01" = some [(0.940798238231 : ℚ)] := by
      simp [lookup, refTable, List.find?]
    have ht : lookup refTable "teacher.n.01" = some [(0.967868985302 : ℚ)] := by
      simp [lookup, refTable, List.find?]
    simp only [difference_in_hierarchy, hp, ht, Option.bind_eq_bind,
      Option.some_bind, Option.some.injEq]
    have h1 : Real.sqrt (normSq [(0.940798238231 : ℚ)])
        = (0.940798238231 : ℝ) := by
      have : ((normSq [(0.940798238231 : ℚ)] : ℚ) : ℝ)
          = (0.940798238231 : ℝ) * (0.940798238231 : ℝ) := by
        norm_num [normSq]
      rw [this, Real.sqrt_mul_self (by norm_num)]
    have h2 : Real.sqrt (normSq [(0.967868985302 : ℚ)])
        = (0.967868985302 : ℝ) := by
      have : ((normSq [(0.967868985302 : ℚ)] : ℚ) : ℝ)
          = (0.967868985302 : ℝ) * (0.967868985302 : ℝ) := by
        norm_num [normSq]
      rw [this, Real.sqrt_mul_self (by norm_num)]
    rw [h1, h2]
    norm_num

/-- C1 witness: instantiated on the reference table itself. -/
theorem difference_in_hierarchy_spec_witness :
    (lookup refTable "person.n.01" = some [(0.940798238231 : ℚ)]
      ∧ lookup refTable "teacher.n.01" = some [(0.967868985302 : ℚ)]
      ∧ normSq [(0.940798238231 : ℚ)] < 1 ∧ normSq [(0.967868985302 : ℚ)] < 1)
    ∧ ((difference_in_hierarchy refTable "person.n.01" "teacher.n.01"
        = some (Real.sqrt (normSq [(0.967868985302 : ℚ)])
            - Real.sqrt (normSq [(0.940798238231 : ℚ)])))
      ∧ normOf refTable "person.n.01"
          = some (Real.sqrt (normSq [(0.940798238231 : ℚ)]))
      ∧ normOf refTable "teacher.n.01"
          = some (Real.sqrt (normSq [(0.967868985302 : ℚ)]))
      ∧ (0 < Real.sqrt (normSq [(0.967868985302 : ℚ)])
            - Real.sqrt (normSq [(0.940798238231 : ℚ)])
          ↔ Real.sqrt (normSq [(0.940798238231 : ℚ)])
            < Real.sqrt (normSq [(0.967868985302 : ℚ)]))
      ∧ difference_in_hierarchy refTable "person.n.01" "teacher.n.01"
          = some (0.027070747071 : ℝ)) :=
  ⟨⟨by simp [lookup, refTable, List.find?], by simp [lookup, refTable, List.find?],
      by norm_num [normSq], by norm_num [normSq]⟩,
    difference_in_hierarchy_spec refTable "person.n.01" "teacher.n.01" _ _
      (by simp [lookup, refTable, List.find?])
      (by simp [lookup, refTable, List.find?])
      (by norm_num [normSq]) (by norm_num [normSq])⟩

/-- C4: starting from a table in which every vector's norm is strictly below
`1 − ε`, the projected Riemannian SGD step for a relation (updating the child,
the parent and each negative, for any gradients and learning rate) preserves
the invariant that no vector's norm reaches or exceeds `1 − ε`; iterating the
step over any list of relations (every relation of every epoch) preserves it
as well. -/
theorem trainStep_preserves_ball (eps lr : ℝ) (table : List (List ℝ))
    (child parent : ℕ) (negatives : List ℕ) (grads : ℕ → List ℝ)
    (rels : List ((ℕ × ℕ) × List ℕ × (ℕ → List ℝ)))
    (heps : 0 < eps) (heps1 : eps < 1)
    (hball : ∀ v ∈ table, normR v < 1 - eps) :
    (∀ v ∈ trainStep eps lr table child parent negatives grads,
        normR v < 1 - eps)
    ∧ ∀ v ∈ trainRun eps lr rels table, normR v < 1 - eps := by
  constructor
  · exact trainStep_ball eps lr table child parent negatives grads heps heps1 hball
  · revert hball
    induction rels generalizing table with
    | nil => intro hball; exact fun v hv => hball v hv
    | cons r rs ih =>
        intro hball
        unfold trainRun
        simp only [List.foldl_cons]
        exact ih _ (trainStep_ball eps lr table r.1.1 r.1.2 r.2.1 r.2.2
          heps heps1 hball)

/-- C4 witness: the invariant instantiated with `ε = 1/2`, a one-vector
table `[[0]]` and one relation. -/
theorem trainStep_preserves_ball_witness :
    ((0 : ℝ) < 1/2 ∧ (1/2 : ℝ) < 1
      ∧ ∀ v ∈ [[(0 : ℝ)]], normR v < 1 - 1/2)
    ∧ ((∀ v ∈ trainStep (1/2) 1 [[(0 : ℝ)]] 0 0 [] (fun _ => [1]),
          normR v < 1 - 1/2)
      ∧ ∀ v ∈ trainRun (1/2) 1 [((0, 0), [], fun _ => [1])] [[(0 : ℝ)]],
          normR v < 1 - 1/2) := by
  have hb : ∀ v ∈ [[(0 : ℝ)]], normR v < 1 - 1/2 := by
    intro v hv
    simp only [List.mem_singleton] at hv
    subst hv
    simp only [normR, normSqR, List.map_cons, List.map_nil, List.sum_cons,
      List.sum_nil, mul_zero, add_zero, Real.sqrt_zero]
    norm_num
  exact ⟨⟨by norm_num, by norm_num, hb⟩,
    trainStep_preserves_ball (1/2) 1 [[(0 : ℝ)]] 0 0 [] (fun _ => [1])
      [((0, 0), [], fun _ => [1])] (by norm_num) (by norm_num) hb⟩

/-- C7: `train` resumes from the stored `TrainingState`: after two successive
`train(epochs = 1)` calls on a fresh state the epoch counter equals 2; once
the burn-in epochs are exhausted every learning rate used by any later train
call on the resumed state is `η_main`; in particular with one burn-in epoch
the second call uses `η_main`. -/
theorem train_resumes (cfg : TrainerConfig) (st : TrainingState)
    (h0 : st.epochCount = 0) :
    (train cfg (train cfg st 1).1 1).1.epochCount = 2
    ∧ (∀ (st' : TrainingState) (n : ℕ), cfg.burnInEpochs ≤ st'.epochCount →
        ∀ lr ∈ (train cfg st' n).2, lr = cfg.lrMain)
    ∧ (cfg.burnInEpochs = 1 →
        (train cfg (train cfg st 1).1 1).2 = [cfg.lrMain]) := by
  refine ⟨?_, ?_, ?_⟩
  · simp [train, runEpoch, h0]
  · intro st' n
    induction n generalizing st' with
    | zero => intro _ lr hlr; simp [train] at hlr
    | succ m ih =>
        intro hb lr hlr
        simp only [train, List.mem_cons] at hlr
        rcases hlr with h | h
        · rw [h]
          unfold epochLr
          rw [if_neg (by omega)]
        · exact ih (runEpoch cfg st') (by simp [runEpoch]; omega) lr h
  · intro hb
    simp [train, runEpoch, epochLr, h0, hb]

/-- C7 witness: instantiated with the demonstration configuration (one
burn-in epoch) and a fresh state. -/
theorem train_resumes_witness :
    demoState.epochCount = 0
    ∧ ((train demoConfig (train demoConfig demoState 1).1 1).1.epochCount = 2
      ∧ (∀ (st' : TrainingState) (n : ℕ),
          demoConfig.burnInEpochs ≤ st'.epochCount →
            ∀ lr ∈ (train demoConfig st' n).2, lr = demoConfig.lrMain)
      ∧ (demoConfig.burnInEpochs = 1 →
          (train demoConfig (train demoConfig demoState 1).1 1).2
            = [demoConfig.lrMain])) :=
  ⟨rfl, train_resumes demoConfig demoState rfl⟩

/-- C8: `distance(u, v)` fails with a lookup error whenever either id is
unknown; when both ids are known it fails with a domain error whenever either
resolved vector has Euclidean norm ≥ 1, and otherwise succeeds with
`arccosh(1 + 2‖u−v‖² / ((1−‖u‖²)(1−‖v‖²)))`. -/
theorem distance_error_spec (kv : KeyedVectors) (u v : String) :
    ((lookup kv u = none ∨ lookup kv v = none) →
      distance kv u v = Except.error QueryError.unknownNodeId)
    ∧ ∀ x y, lookup kv u = some x → lookup kv v = some y →
        ((1 ≤ Real.sqrt (normSq x) ∨ 1 ≤ Real.sqrt (normSq y)) →
          distance kv u v = Except.error QueryError.boundaryViolation)
        ∧ (Real.sqrt (normSq x) < 1 → Real.sqrt (normSq y) < 1 →
            distance kv u v = Except.ok (arcosh (1 +
              2 * (normSq (subV x y) : ℝ)
                / ((1 - (normSq x : ℝ)) * (1 - (normSq y : ℝ)))))) := by
  constructor
  · intro h
    unfold distance
    rcases h with h | h
    · rw [h]
    · rw [h]
      cases lookup kv u <;> rfl
  · intro x y hx hy
    have hxq : (1 ≤ Real.sqrt (normSq x)) ↔ 1 ≤ normSq x := by
      rw [Real.one_le_sqrt]
      exact_mod_cast Iff.rfl
    have hyq : (1 ≤ Real.sqrt (normSq y)) ↔ 1 ≤ normSq y := by
      rw [Real.one_le_sqrt]
      exact_mod_cast Iff.rfl
    constructor
    · intro h
      unfold distance
      rw [hx, hy]
      show (if 1 ≤ normSq x ∨ 1 ≤ normSq y then
          Except.error QueryError.boundaryViolation
        else Except.ok (arcosh (gamma x y : ℝ)))
          = Except.error QueryError.boundaryViolation
      rw [if_pos]
      rcases h with h | h
      · exact Or.inl (hxq.mp h)
      · exact Or.inr (hyq.mp h)
    · intro h1 h2
      unfold distance
      rw [hx, hy]
      show (if 1 ≤ normSq x ∨ 1 ≤ normSq y then
          Except.error QueryError.boundaryViolation
        else Except.ok (arcosh (gamma x y : ℝ)))
          = Except.ok (arcosh (1 + 2 * (normSq (subV x y) : ℝ)
              / ((1 - (normSq x : ℝ)) * (1 - (normSq y : ℝ)))))
      rw [if_neg]
      · congr 1
        unfold gamma
        push_cast
        ring
      · push_neg
        constructor
        · exact not_le.mp (fun hc => absurd (hxq.mpr hc) (not_le.mpr h1))
        · exact not_le.mp (fun hc => absurd (hyq.mpr hc) (not_le.mpr h2))

/-- C8 witness: the three behaviours exercised on `errTable` — unknown id
`q`, the boundary-violating node `c`, and the valid pair `a`, `b`. -/
theorem distance_error_spec_witness :
    (lookup errTable "q" = none
      ∧ lookup errTable "a" = some [(1 : ℚ)/2]
      ∧ lookup errTable "b" = some [(1 : ℚ)/3]
      ∧ lookup errTable "c" = some [(2 : ℚ)]
      ∧ 1 ≤ Real.sqrt (normSq [(2 : ℚ)])
      ∧ Real.sqrt (normSq [(1 : ℚ)/2]) < 1
      ∧ Real.sqrt (normSq [(1 : ℚ)/3]) < 1)
    ∧ distance errTable "a" "q" = Except.error QueryError.unknownNodeId
    ∧ distance errTable "a" "c" = Except.error QueryError.boundaryViolation
    ∧ distance errTable "a" "b" = Except.ok (arcosh (1 +
        2 * (normSq (subV [(1 : ℚ)/2] [(1 : ℚ)/3]) : ℝ)
          / ((1 - (normSq [(1 : ℚ)/2] : ℝ)) * (1 - (normSq [(1 : ℚ)/3] : ℝ))))) := by
  have hq : lookup errTable "q" = none := by simp [lookup, errTable, List.find?]
  have ha : lookup errTable "a" = some [(1 : ℚ)/2] := by
    simp [lookup, errTable, List.find?]
  have hb : lookup errTable "b" = some [(1 : ℚ)/3] := by
    simp [lookup, errTable, List.find?]
  have hc : lookup errTable "c" = some [(2 : ℚ)] := by
    simp [lookup, errTable, List.find?]
  have hcn : 1 ≤ Real.sqrt (normSq [(2 : ℚ)]) := by
    rw [Real.one_le_sqrt]
    norm_num [normSq]
  have han : Real.sqrt (normSq [(1 : ℚ)/2]) < 1 := by
    rw [show (1 : ℝ) = Real.sqrt 1 by rw [Real.sqrt_one]]
    apply Real.sqrt_lt_sqrt
    · exact_mod_cast normSq_nonneg _
    · norm_num [normSq]
  have hbn : Real.sqrt (normSq [(1 : ℚ)/3]) < 1 := by
    rw [show (1 : ℝ) = Real.sqrt 1 by rw [Real.sqrt_one]]
    apply Real.sqrt_lt_sqrt
    · exact_mod_cast normSq_nonneg _
    · norm_num [normSq]
  exact ⟨⟨hq, ha, hb, hc, hcn, han, hbn⟩,
    (distance_error_spec errTable "a" "q").1 (Or.inr hq),
    ((distance_error_spec errTable "a" "c").2 _ _ ha hc).1 (Or.inr hcn),
    ((distance_error_spec errTable "a" "b").2 _ _ ha hb).2 han hbn⟩

theorem head?_mem {α : Type} {l : List α} {a : α} (h : l.head? = some a) :
    a ∈ l := by
  cases l with
  | nil => simp at h
  | cons b t =>
      simp only [List.head?, Option.some.injEq] at h
      rw [← h]
      exact List.mem_cons_self b t

theorem closest_child_step {kv : KeyedVectors} (hnd : kv.keys.Nodup)
    {u w : String} (h : closest_child kv u = some w) :
    ∃ xu xw, lookup kv u = some xu ∧ lookup kv w = some xw
      ∧ normSq xu < normSq xw := by
  unfold closest_child at h
  cases hu : lookup kv u with
  | none => rw [hu] at h; simp at h
  | some xu =>
      rw [hu] at h
      simp only [Option.map_eq_some'] at h
      obtain ⟨p, hp, hpw⟩ := h
      have hmem := head?_mem hp
      rw [(List.perm_insertionSort (simRel xu) _).mem_iff] at hmem
      rw [List.mem_filter] at hmem
      obtain ⟨hmem, hpred⟩ := hmem
      simp only [decide_eq_true_eq] at hpred
      obtain ⟨j, w', xw⟩ := p
      simp only at hpw hpred
      subst hpw
      exact ⟨xu, xw, rfl,
        lookup_of_mem hnd (snd_mem_of_mem_enum hmem), hpred⟩

theorem closest_parent_step {kv : KeyedVectors} (hnd : kv.keys.Nodup)
    {u w : String} (h : closest_parent kv u = some w) :
    ∃ xu xw, lookup kv u = some xu ∧ lookup kv w = some xw
      ∧ normSq xw < normSq xu := by
  unfold closest_parent at h
  cases hu : lookup kv u with
  | none => rw [hu] at h; simp at h
  | some xu =>
      rw [hu] at h
      simp only [Option.map_eq_some'] at h
      obtain ⟨p, hp, hpw⟩ := h
      have hmem := head?_mem hp
      rw [(List.perm_insertionSort (simRel xu) _).mem_iff] at hmem
      rw [List.mem_filter] at hmem
      obtain ⟨hmem, hpred⟩ := hmem
      simp only [decide_eq_true_eq] at hpred
      obtain ⟨j, w', xw⟩ := p
      simp only at hpw hpred
      subst hpw
      exact ⟨xu, xw, rfl,
        lookup_of_mem hnd (snd_mem_of_mem_enum hmem), hpred⟩

theorem chainFrom_length (step : String → Option String) :
    ∀ (d : ℕ) (u : String), (chainFrom step d u).length ≤ d := by
  intro d
  induction d with
  | zero => intro u; simp [chainFrom]
  | succ m ih =>
      intro u
      unfold chainFrom
      cases step u with
      | none => simp
      | some w => simpa using ih w

theorem chainFrom_eq_nil {step : String → Option String} {u : String}
    (h : step u = none) : ∀ d, chainFrom step d u = [] := by
  intro d
  cases d with
  | zero => rfl
  | succ m => unfold chainFrom; rw [h]

theorem normLt_of_normSq_lt {kv : KeyedVectors} {a b : String}
    {xa xb : List ℚ} (ha : lookup kv a = some xa) (hb : lookup kv b = some xb)
    (h : normSq xa < normSq xb) : normLt kv a b := by
  refine ⟨Real.sqrt (normSq xa), Real.sqrt (normSq xb), ?_, ?_, ?_⟩
  · simp [normOf, ha]
  · simp [normOf, hb]
  · apply Real.sqrt_lt_sqrt
    · exact_mod_cast normSq_nonneg xa
    · exact_mod_cast h

theorem descendants_chain (kv : KeyedVectors) (hnd : kv.keys.Nodup) :
    ∀ (d : ℕ) (u : String),
      List.Chain (normLt kv) u (descendants kv u d) := by
  intro d
  induction d with
  | zero => intro u; exact List.Chain.nil
  | succ m ih =>
      intro u
      unfold descendants chainFrom
      cases hc : closest_child kv u with
      | none => exact List.Chain.nil
      | some w =>
          obtain ⟨xu, xw, hu, hw, hlt⟩ := closest_child_step hnd hc
          exact List.Chain.cons (normLt_of_normSq_lt hu hw hlt) (ih w)

theorem ancestors_chain (kv : KeyedVectors) (hnd : kv.keys.Nodup) :
    ∀ (d : ℕ) (u : String),
      List.Chain (fun a b => normLt kv b a) u (ancestors kv u d) := by
  intro d
  induction d with
  | zero => intro u; exact List.Chain.nil
  | succ m ih =>
      intro u
      unfold ancestors chainFrom
      cases hc : closest_parent kv u with
      | none => exact List.Chain.nil
      | some w =>
          obtain ⟨xu, xw, hu, hw, hlt⟩ := closest_parent_step hnd hc
          exact List.Chain.cons (normLt_of_normSq_lt hw hu hlt) (ih w)

/-- C6: `descendants` and `ancestors` are the greedy `closestChild` /
`closestParent` chains, stopping after `maxDepth` steps or when no further
step exists; the descendant chain strictly increases the norm at each step,
the ancestor chain strictly decreases it, and both chains are bounded by
`maxDepth` (termination without a cycle check). -/
theorem chains_monotone (kv : KeyedVectors) (u : String) (d : ℕ)
    (hnd : kv.keys.Nodup) :
    descendants kv u d = chainFrom (closest_child kv) d u
    ∧ ancestors kv u d = chainFrom (closest_parent kv) d u
    ∧ List.Chain (normLt kv) u (descendants kv u d)
    ∧ List.Chain (fun a b => normLt kv b a) u (ancestors kv u d)
    ∧ (descendants kv u d).length ≤ d
    ∧ (ancestors kv u d).length ≤ d :=
  ⟨rfl, rfl, descendants_chain kv hnd d u, ancestors_chain kv hnd d u,
    chainFrom_length _ d u, chainFrom_length _ d u⟩

/-- C6 witness: instantiated on the concrete five-node table at node `c`
with depth 3. -/
theorem chains_monotone_witness :
    ballTable.keys.Nodup
    ∧ (descendants ballTable "c" 3 = chainFrom (closest_child ballTable) 3 "c"
      ∧ ancestors ballTable "c" 3 = chainFrom (closest_parent ballTable) 3 "c"
      ∧ List.Chain (normLt ballTable) "c" (descendants ballTable "c" 3)
      ∧ List.Chain (fun a b => normLt ballTable b a) "c"
          (ancestors ballTable "c" 3)
      ∧ (descendants ballTable "c" 3).length ≤ 3
      ∧ (ancestors ballTable "c" 3).length ≤ 3) :=
  ⟨by decide, chains_monotone ballTable "c" 3 (by decide)⟩

theorem chainFrom_zero (step : String → Option String) (u : String) :
    chainFrom step 0 u = [] := rfl

theorem chainFrom_succ (step : String → Option String) (d : ℕ) (u : String) :
    chainFrom step (d + 1) u =
      match step u with
      | none => []
      | some w => w :: chainFrom step d w := rfl

theorem exTable_cc_x : closest_child exTable "x" = some "w" := by
  have hx : lookup exTable "x" = some [1/4, 0] := by
    simp [lookup, exTable, List.find?]
  unfold closest_child
  rw [hx]
  norm_num [exTable, List.enum, List.enumFrom, List.filter_cons,
    List.filter_nil, normSq, List.insertionSort, List.orderedInsert,
    simRel, gamma, subV]

theorem exTable_cc_w : closest_child exTable "w" = some "y" := by
  have hw : lookup exTable "w" = some [-(1/4), -(1/4)] := by
    simp [lookup, exTable, List.find?]
  unfold closest_child
  rw [hw]
  norm_num [exTable, List.enum, List.enumFrom, List.filter_cons,
    List.filter_nil, normSq, List.insertionSort, List.orderedInsert,
    simRel, gamma, subV]

theorem exTable_cp_y : closest_parent exTable "y" = some "w" := by
  have hy : lookup exTable "y" = some [-(1/4), -(1/2)] := by
    simp [lookup, exTable, List.find?]
  unfold closest_parent
  rw [hy]
  norm_num [exTable, List.enum, List.enumFrom, List.filter_cons,
    List.filter_nil, normSq, List.insertionSort, List.orderedInsert,
    simRel, gamma, subV]

theorem exTable_cp_w : closest_parent exTable "w" = some "xp" := by
  have hw : lookup exTable "w" = some [-(1/4), -(1/4)] := by
    simp [lookup, exTable, List.find?]
  unfold closest_parent
  rw [hw]
  norm_num [exTable, List.enum, List.enumFrom, List.filter_cons,
    List.filter_nil, normSq, List.insertionSort, List.orderedInsert,
    simRel, gamma, subV]

theorem exTable_cp_xp : closest_parent exTable "xp" = none := by
  have hxp : lookup exTable "xp" = some [-(1/4), 0] := by
    simp [lookup, exTable, List.find?]
  unfold closest_parent
  rw [hxp]
  norm_num [exTable, List.enum, List.enumFrom, List.filter_cons,
    List.filter_nil, normSq, List.insertionSort, List.orderedInsert,
    simRel, gamma, subV]

/-- C9: the hierarchy chains are directional — on `exTable`, node `y` is
reached by `descendants("x")`, yet `x` is never produced by
`ancestors("y", d)` for any depth `d`, even though `vectorDistance` itself is
symmetric. -/
theorem chains_asymmetric :
    "y" ∈ descendants exTable "x" 2
    ∧ (∀ dd : ℕ, "x" ∉ ancestors exTable "y" dd)
    ∧ ∀ x y : List ℚ, vector_distance x y = vector_distance y x := by
  have hdesc : descendants exTable "x" 2 = ["w", "y"] := by
    show chainFrom (closest_child exTable) 2 "x" = ["w", "y"]
    simp only [chainFrom_succ, chainFrom_zero, exTable_cc_x, exTable_cc_w]
  refine ⟨by rw [hdesc]; simp, ?_, ?_⟩
  · intro dd
    cases dd with
    | zero => simp [ancestors, chainFrom]
    | succ d1 =>
        show "x" ∉ chainFrom (closest_parent exTable) (d1 + 1) "y"
        rw [chainFrom_succ, exTable_cp_y]
        cases d1 with
        | zero => simp [chainFrom_zero]
        | succ d2 =>
            simp only [chainFrom_succ, exTable_cp_w,
              chainFrom_eq_nil exTable_cp_xp]
            simp
  · intro x y
    unfold vector_distance
    rw [gamma_symm]

/-- C9 witness: the asymmetry instantiated at depth 5 for the ancestor
chain. -/
theorem chains_asymmetric_witness :
    "y" ∈ descendants exTable "x" 2 ∧ "x" ∉ ancestors exTable "y" 5 :=
  ⟨chains_asymmetric.1, chains_asymmetric.2.1 5⟩

theorem lookup_of_enum_mem {kv : KeyedVectors} (hnd : kv.keys.Nodup)
    {p : ℕ × String × List ℚ} (hp : p ∈ kv.entries.enum) :
    lookup kv p.2.1 = some p.2.2 := by
  obtain ⟨j, w, y⟩ := p
  exact lookup_of_mem hnd (snd_mem_of_mem_enum hp)

theorem vd_le_of_gamma_le {xu a b : List ℚ} (h1 : (1 : ℚ) ≤ gamma xu a)
    (h : gamma xu a ≤ gamma xu b) :
    vector_distance xu a ≤ vector_distance xu b :=
  arcosh_mono (by exact_mod_cast h1) (by exact_mod_cast h)

theorem vd_lt_of_gamma_lt {xu a b : List ℚ} (h1 : (1 : ℚ) ≤ gamma xu a)
    (h : gamma xu a < gamma xu b) :
    vector_distance xu a < vector_distance xu b :=
  arcosh_strictMono (by exact_mod_cast h1) (by exact_mod_cast h)

theorem gamma_lt_of_vd_lt {xu a b : List ℚ} (h2 : (1 : ℚ) ≤ gamma xu b)
    (h : vector_distance xu a < vector_distance xu b) :
    gamma xu a < gamma xu b := by
  by_contra hc
  exact absurd (vd_le_of_gamma_le h2 (not_lt.mp hc)) (not_le.mpr h)

/-- C2: `nodesCloserThan(u, v)` returns exactly the node ids other than `u`
whose distance to `u` is strictly below `distance(u, v)`, in ascending order
of distance, and its size is `rank(u, v) − 1`. -/
theorem nodes_closer_than_rank (kv : KeyedVectors) (u v : String)
    (xu xv : List ℚ) (hnd : kv.keys.Nodup) (hball : inBall kv)
    (hu : lookup kv u = some xu) (hv : lookup kv v = some xv) :
    rank kv u v = some ((nodes_closer_than kv u v).length + 1)
    ∧ (∀ w, w ∈ nodes_closer_than kv u v ↔
        ∃ yw, lookup kv w = some yw ∧ w ≠ u
          ∧ vector_distance xu yw < vector_distance xu xv)
    ∧ List.Pairwise (fun a b => ∀ ya yb, lookup kv a = some ya →
        lookup kv b = some yb →
          vector_distance xu ya ≤ vector_distance xu yb)
        (nodes_closer_than kv u v) := by
  have hxu1 : normSq xu < 1 := hball _ (lookup_mem hu)
  have hxv1 : normSq xv < 1 := hball _ (lookup_mem hv)
  have hγxv : (1 : ℚ) ≤ gamma xu xv := one_le_gamma hxu1 hxv1
  have hn : nodes_closer_than kv u v =
      ((kv.entries.enum.filter
        (fun p => decide (p.2.1 ≠ u ∧ gamma xu p.2.2 < gamma xu xv))).insertionSort
          (simRel xu)).map (fun p => p.2.1) := by
    unfold nodes_closer_than
    rw [hu, hv]
  have hperm := List.perm_insertionSort (simRel xu)
    (kv.entries.enum.filter
      (fun p => decide (p.2.1 ≠ u ∧ gamma xu p.2.2 < gamma xu xv)))
  have hLmem : ∀ p, p ∈ (kv.entries.enum.filter
      (fun p => decide (p.2.1 ≠ u ∧ gamma xu p.2.2 < gamma xu xv))).insertionSort
        (simRel xu) ↔
      p ∈ kv.entries.enum ∧ p.2.1 ≠ u ∧ gamma xu p.2.2 < gamma xu xv := by
    intro p
    rw [hperm.mem_iff, List.mem_filter]
    simp only [decide_eq_true_eq]
  refine ⟨?_, ?_, ?_⟩
  · unfold rank
    rw [hu, hv]
    show some (1 + kv.entries.countP
      (fun e => decide (e.1 ≠ u ∧ gamma xu e.2 < gamma xu xv)))
        = some ((nodes_closer_than kv u v).length + 1)
    congr 1
    rw [hn, List.length_map, hperm.length_eq]
    rw [Nat.add_comm]
    congr 1
    exact ((length_filter_enumFrom
        (fun e => decide (e.1 ≠ u ∧ gamma xu e.2 < gamma xu xv))
        kv.entries 0).trans
      (List.countP_eq_length_filter _ _).symm).symm
  · intro w
    rw [hn]
    constructor
    · intro hw
      obtain ⟨p, hp, hpw⟩ := List.mem_map.mp hw
      obtain ⟨hpe, hpne, hplt⟩ := (hLmem p).mp hp
      have hlk := lookup_of_enum_mem hnd hpe
      have hball_p : normSq p.2.2 < 1 := by
        have := snd_mem_of_mem_enum hpe
        exact hball _ this
      refine ⟨p.2.2, hpw ▸ hlk, hpw ▸ hpne, ?_⟩
      exact vd_lt_of_gamma_lt (one_le_gamma hxu1 hball_p) hplt
    · rintro ⟨yw, hlw, hwne, hdlt⟩
      have hmem := lookup_mem hlw
      obtain ⟨j, hj⟩ := mem_enum_of_mem hmem
      have hglt : gamma xu yw < gamma xu xv := gamma_lt_of_vd_lt hγxv hdlt
      refine List.mem_map.mpr ⟨(j, w, yw), ?_, rfl⟩
      exact (hLmem (j, w, yw)).mpr ⟨hj, hwne, hglt⟩
  · rw [hn]
    have hsorted := sorted_insertionSort_simRel xu
      (kv.entries.enum.filter
        (fun p => decide (p.2.1 ≠ u ∧ gamma xu p.2.2 < gamma xu xv)))
    have hstrong : List.Pairwise (fun a b : ℕ × String × List ℚ =>
        ∀ ya yb, lookup kv a.2.1 = some ya → lookup kv b.2.1 = some yb →
          vector_distance xu ya ≤ vector_distance xu yb)
        ((kv.entries.enum.filter
          (fun p => decide (p.2.1 ≠ u ∧ gamma xu p.2.2 < gamma xu xv))).insertionSort
            (simRel xu)) := by
      refine hsorted.imp_of_mem ?_
      intro a b ha hb hab
      intro ya yb hya hyb
      have hla := lookup_of_enum_mem hnd ((hLmem a).mp ha).1
      have hlb := lookup_of_enum_mem hnd ((hLmem b).mp hb).1
      rw [hla] at hya
      rw [hlb] at hyb
      have hya' : ya = a.2.2 := by injection hya.symm
      have hyb' : yb = b.2.2 := by injection hyb.symm
      subst hya' hyb'
      have hba : normSq a.2.2 < 1 := hball _ (snd_mem_of_mem_enum ((hLmem a).mp ha).1)
      rcases hab with h | ⟨h, _⟩
      · exact le_of_lt (vd_lt_of_gamma_lt (one_le_gamma hxu1 hba) h)
      · exact vd_le_of_gamma_le (one_le_gamma hxu1 hba) (le_of_eq h)
    exact List.Pairwise.map _ (fun a b h => h) hstrong

theorem most_similar_core (kv : KeyedVectors) (u : String) (xu : List ℚ)
    (topN : ℕ) (hnd : kv.keys.Nodup) (hball : inBall kv)
    (hu : lookup kv u = some xu) :
    (most_similar kv u topN).length = min topN (kv.entries.length - 1)
    ∧ (∀ p ∈ most_similar kv u topN, p.1 ≠ u)
    ∧ List.Pairwise (fun a b : String × ℝ => a.2 ≤ b.2) (most_similar kv u topN)
    ∧ (∀ p ∈ most_similar kv u topN, ∃ w y, lookup kv w = some y
        ∧ p = (w, vector_distance xu y))
    ∧ (∀ w y, (w, y) ∈ kv.entries → w ≠ u →
        w ∉ (most_similar kv u topN).map Prod.fst →
        ∀ p ∈ most_similar kv u topN, p.2 ≤ vector_distance xu y) := by
  have hxu1 : normSq xu < 1 := hball _ (lookup_mem hu)
  have hm : most_similar kv u topN =
      ((rankedOthers kv u xu).take topN).map
        (fun p => (p.2.1, arcosh (gamma xu p.2.2))) := by
    unfold most_similar
    rw [hu]
  have hLdef : rankedOthers kv u xu =
      (kv.entries.enum.filter (fun p => decide (p.2.1 ≠ u))).insertionSort
        (simRel xu) := rfl
  have hperm := List.perm_insertionSort (simRel xu)
    (kv.entries.enum.filter (fun p => decide (p.2.1 ≠ u)))
  have hLmem : ∀ p, p ∈ rankedOthers kv u xu ↔
      p ∈ kv.entries.enum ∧ p.2.1 ≠ u := by
    intro p
    rw [hLdef, hperm.mem_iff, List.mem_filter]
    simp only [decide_eq_true_eq]
  have hLball : ∀ p ∈ rankedOthers kv u xu, normSq p.2.2 < 1 := by
    intro p hp
    exact hball _ (snd_mem_of_mem_enum ((hLmem p).mp hp).1)
  have hsorted : List.Pairwise (simRel xu) (rankedOthers kv u xu) := by
    rw [hLdef]
    exact sorted_insertionSort_simRel xu _
  refine ⟨?_, ?_, ?_, ?_, ?_⟩
  · rw [hm, List.length_map, List.length_take]
    congr 1
    rw [hLdef, hperm.length_eq]
    have hkey : u ∈ kv.entries.map Prod.fst :=
      List.mem_map.mpr ⟨(u, xu), lookup_mem hu, rfl⟩
    have hflen := length_filter_ne_key hnd hkey
    have henum : (kv.entries.enum.filter (fun p => decide (p.2.1 ≠ u))).length
        = (kv.entries.filter (fun e => decide (e.1 ≠ u))).length :=
      length_filter_enumFrom (fun e => decide (e.1 ≠ u)) kv.entries 0
    omega
  · intro p hp
    rw [hm] at hp
    obtain ⟨q, hq, rfl⟩ := List.mem_map.mp hp
    exact ((hLmem q).mp ((List.take_sublist _ _).subset hq)).2
  · rw [hm]
    have htake : List.Pairwise (simRel xu) ((rankedOthers kv u xu).take topN) :=
      List.Pairwise.sublist (List.take_sublist _ _) hsorted
    have hstrong : List.Pairwise (fun a b : ℕ × String × List ℚ =>
        vector_distance xu a.2.2 ≤ vector_distance xu b.2.2)
        ((rankedOthers kv u xu).take topN) := by
      refine htake.imp_of_mem ?_
      intro a b ha hb hab
      have hba : normSq a.2.2 < 1 :=
        hLball a ((List.take_sublist _ _).subset ha)
      rcases hab with h | ⟨h, _⟩
      · exact le_of_lt (vd_lt_of_gamma_lt (one_le_gamma hxu1 hba) h)
      · exact vd_le_of_gamma_le (one_le_gamma hxu1 hba) (le_of_eq h)
    exact List.Pairwise.map _ (fun a b h => h) hstrong
  · intro p hp
    rw [hm] at hp
    obtain ⟨q, hq, rfl⟩ := List.mem_map.mp hp
    have hqL := (List.take_sublist _ _).subset hq
    exact ⟨q.2.1, q.2.2, lookup_of_enum_mem hnd ((hLmem q).mp hqL).1, rfl⟩
  · intro w y hwy hwne hwnot p hp
    obtain ⟨j, hj⟩ := mem_enum_of_mem hwy
    have hjL : (j, w, y) ∈ rankedOthers kv u xu := (hLmem _).mpr ⟨hj, hwne⟩
    have hsplit : (j, w, y) ∈ (rankedOthers kv u xu).take topN
        ++ (rankedOthers kv u xu).drop topN := by
      rw [List.take_append_drop]
      exact hjL
    rcases List.mem_append.mp hsplit with htk | hdr
    · exfalso
      apply hwnot
      rw [hm, List.map_map]
      exact List.mem_map.mpr ⟨(j, w, y), htk, rfl⟩
    · have hsorted' : List.Pairwise (simRel xu)
          ((rankedOthers kv u xu).take topN
            ++ (rankedOthers kv u xu).drop topN) := by
        rw [List.take_append_drop]
        exact hsorted
      have hcross := (List.pairwise_append.mp hsorted').2.2
      rw [hm] at hp
      obtain ⟨q, hq, rfl⟩ := List.mem_map.mp hp
      have hrel := hcross q hq _ hdr
      have hqball : normSq q.2.2 < 1 :=
        hLball q ((List.take_sublist _ _).subset hq)
      show vector_distance xu q.2.2 ≤ vector_distance xu y
      rcases hrel with h | ⟨h, _⟩
      · exact le_of_lt (vd_lt_of_gamma_lt (one_le_gamma hxu1 hqball) h)
      · exact vd_le_of_gamma_le (one_le_gamma hxu1 hqball) (le_of_eq h)

/-- C5: for a known node id, `mostSimilar(node, topN)` returns the
`min(topN, vocabulary size − 1)` nodes with the smallest distance to the
query node, ascending by distance, never including the query node, and every
returned distance is at most the distance to any node not returned (the
"topN smallest" property).  The tie-break is the fixed vocabulary index
(`simRel`), and the operation is a pure function of the table, so repeated
calls on the same table return the same list by definitional equality. -/
theorem most_similar_spec (kv : KeyedVectors) (u : String) (xu : List ℚ)
    (topN : ℕ) (hnd : kv.keys.Nodup) (hball : inBall kv)
    (hu : lookup kv u = some xu) :
    (most_similar kv u topN).length = min topN (kv.entries.length - 1)
    ∧ (∀ p ∈ most_similar kv u topN, p.1 ≠ u)
    ∧ List.Pairwise (fun a b : String × ℝ => a.2 ≤ b.2) (most_similar kv u topN)
    ∧ (∀ w y, (w, y) ∈ kv.entries → w ≠ u →
        w ∉ (most_similar kv u topN).map Prod.fst →
        ∀ p ∈ most_similar kv u topN, p.2 ≤ vector_distance xu y) := by
  obtain ⟨h1, h2, h3, _, h5⟩ := most_similar_core kv u xu topN hnd hball hu
  exact ⟨h1, h2, h3, h5⟩

/-- C10: called without an explicit `topN`, `mostSimilar` uses the default
neighbour count 10: on a vocabulary with more than 10 nodes it returns
exactly 10 entries, each a (node id, distance) pair, ascending by distance,
excluding the query node. -/
theorem most_similar_default_spec (kv : KeyedVectors) (u : String)
    (xu : List ℚ) (hnd : kv.keys.Nodup) (hball : inBall kv)
    (hu : lookup kv u = some xu) (hbig : 10 < kv.entries.length) :
    most_similar_default kv u = most_similar kv u 10
    ∧ (most_similar_default kv u).length = 10
    ∧ (∀ p ∈ most_similar_default kv u, p.1 ≠ u)
    ∧ List.Pairwise (fun a b : String × ℝ => a.2 ≤ b.2)
        (most_similar_default kv u)
    ∧ ∀ p ∈ most_similar_default kv u, ∃ w y, lookup kv w = some y
        ∧ p = (w, vector_distance xu y) := by
  obtain ⟨h1, h2, h3, h4, _⟩ := most_similar_core kv u xu 10 hnd hball hu
  refine ⟨rfl, ?_, h2, h3, h4⟩
  rw [show most_similar_default kv u = most_similar kv u 10 from rfl, h1]
  omega

/-- C2 witness: instantiated on the five-node table at `u = a`, `v = c`. -/
theorem nodes_closer_than_rank_witness :
    (ballTable.keys.Nodup ∧ inBall ballTable
      ∧ lookup ballTable "a" = some [(0 : ℚ)]
      ∧ lookup ballTable "c" = some [(2 : ℚ)/10])
    ∧ (rank ballTable "a" "c"
          = some ((nodes_closer_than ballTable "a" "c").length + 1)
      ∧ (∀ w, w ∈ nodes_closer_than ballTable "a" "c" ↔
          ∃ yw, lookup ballTable w = some yw ∧ w ≠ "a"
            ∧ vector_distance [(0 : ℚ)] yw
              < vector_distance [(0 : ℚ)] [(2 : ℚ)/10])
      ∧ List.Pairwise (fun a b => ∀ ya yb, lookup ballTable a = some ya →
          lookup ballTable b = some yb →
            vector_distance [(0 : ℚ)] ya ≤ vector_distance [(0 : ℚ)] yb)
          (nodes_closer_than ballTable "a" "c")) := by
  have h1 : ballTable.keys.Nodup := by decide
  have h2 : inBall ballTable := by
    norm_num [inBall, ballTable, normSq, List.forall_mem_cons]
  have h3 : lookup ballTable "a" = some [(0 : ℚ)] := by
    simp [lookup, ballTable, List.find?]
  have h4 : lookup ballTable "c" = some [(2 : ℚ)/10] := by
    simp [lookup, ballTable, List.find?]
  exact ⟨⟨h1, h2, h3, h4⟩,
    nodes_closer_than_rank ballTable "a" "c" [(0 : ℚ)] [(2 : ℚ)/10] h1 h2 h3 h4⟩

/-- C5 witness: instantiated on the five-node table at node `c` with
`topN = 2`. -/
theorem most_similar_spec_witness :
    (ballTable.keys.Nodup ∧ inBall ballTable
      ∧ lookup ballTable "c" = some [(2 : ℚ)/10])
    ∧ ((most_similar ballTable "c" 2).length
          = min 2 (ballTable.entries.length - 1)
      ∧ (∀ p ∈ most_similar ballTable "c" 2, p.1 ≠ "c")
      ∧ List.Pairwise (fun a b : String × ℝ => a.2 ≤ b.2)
          (most_similar ballTable "c" 2)
      ∧ (∀ w y, (w, y) ∈ ballTable.entries → w ≠ "c" →
          w ∉ (most_similar ballTable "c" 2).map Prod.fst →
          ∀ p ∈ most_similar ballTable "c" 2,
            p.2 ≤ vector_distance [(2 : ℚ)/10] y)) := by
  have h1 : ballTable.keys.Nodup := by decide
  have h2 : inBall ballTable := by
    norm_num [inBall, ballTable, normSq, List.forall_mem_cons]
  have h3 : lookup ballTable "c" = some [(2 : ℚ)/10] := by
    simp [lookup, ballTable, List.find?]
  exact ⟨⟨h1, h2, h3⟩,
    most_similar_spec ballTable "c" [(2 : ℚ)/10] 2 h1 h2 h3⟩

/-- C10 witness: instantiated on the eleven-node table at node `n00`. -/
theorem most_similar_default_spec_witness :
    (bigTable.keys.Nodup ∧ inBall bigTable
      ∧ lookup bigTable "n00" = some [(0 : ℚ)]
      ∧ 10 < bigTable.entries.length)
    ∧ (most_similar_default bigTable "n00" = most_similar bigTable "n00" 10
      ∧ (most_similar_default bigTable "n00").length = 10
      ∧ (∀ p ∈ most_similar_default bigTable "n00", p.1 ≠ "n00")
      ∧ List.Pairwise (fun a b : String × ℝ => a.2 ≤ b.2)
          (most_similar_default bigTable "n00")
      ∧ ∀ p ∈ most_similar_default bigTable "n00", ∃ w y,
          lookup bigTable w = some y
          ∧ p = (w, vector_distance [(0 : ℚ)] y)) := by
  have h1 : bigTable.keys.Nodup := by decide
  have h2 : inBall bigTable := by
    norm_num [inBall, bigTable, normSq, List.forall_mem_cons]
  have h3 : lookup bigTable "n00" = some [(0 : ℚ)] := by
    simp [lookup, bigTable, List.find?]
  have h4 : 10 < bigTable.entries.length := by decide
  exact ⟨⟨h1, h2, h3, h4⟩,
    most_similar_default_spec bigTable "n00" [(0 : ℚ)] h1 h2 h3 h4⟩

end Poincare
